import Mathlib

/-!
Verification of `Just4Passion/toolkit`, files
`src/Cplusplus/DataStructure/StatusMachine.cpp` and
`src/Cplusplus/DataStructure/TaskScheduler.cpp`.

The C++ is embedded shallowly: each class becomes a structure holding its
mutable members, and each method becomes a pure function from the structure
(plus arguments) to its results together with the updated structure.
`std::map` is embedded as an association list built by first-wins insertion
(the semantics of `std::map` construction from an initializer list), with
`find` as key lookup.
-/

set_option autoImplicit false

/-- Enumeration `State` from StatusMachine.cpp: Idle, Running, Paused, Stopped. -/
inductive State where
  | Idle
  | Running
  | Paused
  | Stopped
  deriving DecidableEq, Repr, Fintype

/-- Enumeration `Event` from StatusMachine.cpp: Start, Pause, Resume, Stop. -/
inductive Event where
  | Start
  | Pause
  | Resume
  | Stop
  deriving DecidableEq, Repr, Fintype

/-- Association-list representation of `std::map<std::tuple<State,Event>, State>`:
entries are key-value pairs, and `mapFind` below looks a key up. -/
abbrev StateMap : Type := List ((State × Event) × State)

/-- Embedding of `std::map::find` on the association-list representation:
returns the value stored under the key, if any (the C++ returns an iterator,
compared against `end()`; we return an `Option`). -/
def mapFind (m : StateMap) (k : State × Event) : Option State :=
  match m with
  | [] => none
  | (k2, v) :: rest => if k = k2 then some v else mapFind rest k

/-- Embedding of `std::map::insert` semantics used during construction from an
initializer list: an entry whose key is already present is discarded (first
wins); otherwise it is added. -/
def mapInsert (m : StateMap) (k : State × Event) (v : State) : StateMap :=
  match mapFind m k with
  | some _ => m
  | none => m ++ [(k, v)]

/-- Embedding of `std::map` construction from an initializer list: the entries
are inserted one by one, left to right, with first-wins semantics on duplicate
keys. Construction always produces a map; it has no failure outcome. -/
def mapOfList (l : List ((State × Event) × State)) : StateMap :=
  l.foldl (fun m kv => mapInsert m kv.1 kv.2) []

/-- The initializer list of `transitionRules` in StatusMachine.cpp, lines 57-63,
in source order. -/
def transitionRulesSrc : List ((State × Event) × State) :=
  [((State.Idle, Event.Start), State.Running),
   ((State.Running, Event.Pause), State.Paused),
   ((State.Paused, Event.Resume), State.Running),
   ((State.Running, Event.Stop), State.Stopped),
   ((State.Paused, Event.Stop), State.Stopped)]

/-- The global `transitionRules` map of StatusMachine.cpp: the `std::map`
constructed from the initializer list. -/
def transitionRules : StateMap := mapOfList transitionRulesSrc

/-- Class `SyncStateMachine` (the mutex-guarded FSM, spec name MutexFsm): its
only data member relevant to sequential behaviour is `currentState`; the mutex
serializes the methods and carries no data. -/
structure SyncStateMachine where
  currentState : State
  deriving DecidableEq, Repr

/-- Constructor `SyncStateMachine()`: initializes `currentState` to `Idle`. -/
def SyncStateMachine.new : SyncStateMachine := ⟨State.Idle⟩

/-- Method `SyncStateMachine::handleEvent` (StatusMachine.cpp lines 78-97):
under the lock, look `(currentState, event)` up in `transitionRules`; on a hit
assign the found state to `currentState` and return true, otherwise return
false without mutation. Returns the boolean result together with the machine
after the call. -/
def SyncStateMachine.handleEvent (m : SyncStateMachine) (event : Event) :
    Bool × SyncStateMachine :=
  match mapFind transitionRules (m.currentState, event) with
  | some next => (true, ⟨next⟩)
  | none => (false, m)

/-- Method `SyncStateMachine::getCurrentState`: reads `currentState` under the
lock. -/
def SyncStateMachine.getCurrentState (m : SyncStateMachine) : State :=
  m.currentState

/-- Sequential driver: apply a list of events with `handleEvent`, collecting
every boolean result and the machine after the whole sequence. -/
def SyncStateMachine.run (m : SyncStateMachine) :
    List Event → List Bool × SyncStateMachine
  | [] => ([], m)
  | e :: es =>
      let r := m.handleEvent e
      let rest := r.2.run es
      (r.1 :: rest.1, rest.2)

/-- Class `LockFreeStateMachine` (spec name LockFreeFsm): its data member is
the atomic `currentState` cell. -/
structure LockFreeStateMachine where
  currentState : State
  deriving DecidableEq, Repr

/-- Constructor `LockFreeStateMachine()`: initializes `currentState` to `Idle`. -/
def LockFreeStateMachine.new : LockFreeStateMachine := ⟨State.Idle⟩

/-- Method `LockFreeStateMachine::handleEvent` (StatusMachine.cpp lines
138-148), sequential semantics of the CAS retry loop: `expected` is loaded
from `currentState`; on a failed lookup the method returns false at once; on a
hit the compare-and-swap from `expected` succeeds because no other writer has
intervened between the load and the swap (a spurious `compare_exchange_weak`
failure merely reruns the loop with identical values, giving the same
outcome), so `currentState` becomes `desired` and the method returns true. -/
def LockFreeStateMachine.handleEvent (m : LockFreeStateMachine) (event : Event) :
    Bool × LockFreeStateMachine :=
  let expected := m.currentState
  match mapFind transitionRules (expected, event) with
  | none => (false, m)
  | some desired => (true, ⟨desired⟩)

/-- Method `LockFreeStateMachine::getCurrentState`: an atomic load of
`currentState`. -/
def LockFreeStateMachine.getCurrentState (m : LockFreeStateMachine) : State :=
  m.currentState

/-- Sequential driver for `LockFreeStateMachine`, same shape as
`SyncStateMachine.run`. -/
def LockFreeStateMachine.run (m : LockFreeStateMachine) :
    List Event → List Bool × LockFreeStateMachine
  | [] => ([], m)
  | e :: es =>
      let r := m.handleEvent e
      let rest := r.2.run es
      (r.1 :: rest.1, rest.2)

/-- Atomic actions performed inside the critical section of
`SyncStateMachine_Callback::handleEvent`, in program order: the assignment
`currentState = it->second` and the observer invocation
`onStateChanged(oldState, event, currentState)`. Recording them lets the
ordering between commit and notification be stated. -/
inductive CbAction where
  | assign (s : State)
  | invoke (old : State) (ev : Event) (new : State)
  deriving DecidableEq, Repr

/-- Class `SyncStateMachine_Callback` (spec name ObservableFsm):
`currentState` plus the `onStateChanged` member. The `std::function` value
itself is opaque to the state semantics — only its emptiness is tested by the
code (`if (onStateChanged)`), and its invocations are recorded in the action
trace — so the member is embedded as the boolean `hasCallback`. -/
structure SyncStateMachine_Callback where
  currentState : State
  hasCallback : Bool
  deriving DecidableEq, Repr

/-- Constructor `SyncStateMachine_Callback()`: `currentState` is `Idle` and
`onStateChanged` is default-constructed, hence empty. -/
def SyncStateMachine_Callback.new : SyncStateMachine_Callback :=
  ⟨State.Idle, false⟩

/-- Method `SyncStateMachine_Callback::setCallback` with a non-empty callable:
afterwards `onStateChanged` is non-empty. -/
def SyncStateMachine_Callback.setCallback (m : SyncStateMachine_Callback) :
    SyncStateMachine_Callback :=
  ⟨m.currentState, true⟩

/-- Method `SyncStateMachine_Callback::handleEvent` (StatusMachine.cpp lines
171-184): under the lock, look `(currentState, event)` up; on a hit save
`oldState`, assign `currentState = it->second`, then — only if `onStateChanged`
is non-empty — invoke it with `(oldState, event, currentState)`, where
`currentState` is read after the assignment, and return true; on a miss return
false. The returned trace lists the performed actions in program order. -/
def SyncStateMachine_Callback.handleEvent (m : SyncStateMachine_Callback)
    (event : Event) : Bool × SyncStateMachine_Callback × List CbAction :=
  match mapFind transitionRules (m.currentState, event) with
  | some next =>
      let oldState := m.currentState
      let m2 : SyncStateMachine_Callback := ⟨next, m.hasCallback⟩
      (true, m2,
        CbAction.assign next ::
          (if m.hasCallback then [CbAction.invoke oldState event m2.currentState]
           else []))
  | none => (false, m, [])

/-- Sequential driver for `SyncStateMachine_Callback`: apply a list of events,
collecting the boolean results and the concatenated action traces. -/
def SyncStateMachine_Callback.run (m : SyncStateMachine_Callback) :
    List Event → List Bool × SyncStateMachine_Callback × List CbAction
  | [] => ([], m, [])
  | e :: es =>
      let r := m.handleEvent e
      let rest := r.2.1.run es
      (r.1 :: rest.1, rest.2.1, r.2.2 ++ rest.2.2)

/-- States reachable from the initial state `Idle` by zero or more transitions
of `transitionRules`. -/
inductive ReachableFromIdle : State → Prop where
  | start : ReachableFromIdle State.Idle
  | step (s t : State) (e : Event) : ReachableFromIdle s →
      mapFind transitionRules (s, e) = some t → ReachableFromIdle t

/-!
Embedding of `src/Cplusplus/DataStructure/TaskScheduler.cpp`. A `Task` is kept
abstract: theorems quantify over the element type `α` together with the
priority function `prio : α → Int` embedding the virtual `getPriority`
(C++ `int`). `std::unique_ptr<Task>` ownership transfer is value passing.
-/

/-- Method `FifoStrategy::addTask`: `queue_.push` appends at the back of the
`std::queue`. -/
def FifoStrategy.addTask {α : Type} (q : List α) (t : α) : List α :=
  q ++ [t]

/-- Method `FifoStrategy::getNextTask` (TaskScheduler.cpp lines 104-109): if
the queue is empty return `nullptr` (here `none`); otherwise move out the
front element, pop it, and return it together with the remaining queue. -/
def FifoStrategy.getNextTask {α : Type} (q : List α) : Option (α × List α) :=
  match q with
  | [] => none
  | t :: rest => some (t, rest)

/-- The contents of `PriorityStrategy::pq_`, a
`std::priority_queue` over `unique_ptr<Task>` whose comparator
`a->getPriority() > b->getPriority()` makes it a min-heap on priority. The
heap is embedded through its container contract — `top()` is a minimal
element with respect to the comparator, `pop()` removes it, `push` inserts —
realized as a sequence kept sorted by ascending priority: `pqPush` inserts
before the first strictly greater priority, so the head is always a
minimal-priority element. -/
def pqPush {α : Type} (prio : α → Int) (t : α) : List α → List α
  | [] => [t]
  | x :: xs => if prio t < prio x then t :: x :: xs else x :: pqPush prio t xs

/-- Method `PriorityStrategy::addTask`: `pq_.push(std::move(task))`. -/
def PriorityStrategy.addTask {α : Type} (prio : α → Int) (q : List α) (t : α) :
    List α :=
  pqPush prio t q

/-- Method `PriorityStrategy::getNextTask` (TaskScheduler.cpp lines 132-137):
if the heap is empty return `nullptr` (here `none`); otherwise move out
`pq_.top()` — in this embedding the head of the priority-sorted sequence —
pop it, and return it with the remaining queue. -/
def PriorityStrategy.getNextTask {α : Type} (q : List α) : Option (α × List α) :=
  match q with
  | [] => none
  | t :: rest => some (t, rest)

/-- Method `Scheduler::run` (TaskScheduler.cpp lines 152-156): repeatedly ask
the strategy for the next task and execute it, until the strategy returns
`nullptr`. The loop is embedded with explicit fuel (the iteration count of the C++ loop
iterations is bounded by the queue size, proved below); the returned list is
the execution order of the tasks. -/
def Scheduler.runAux {α σ : Type} (getNext : σ → Option (α × σ)) :
    Nat → σ → List α
  | 0, _ => []
  | n + 1, s =>
      match getNext s with
      | none => []
      | some p => p.1 :: Scheduler.runAux getNext n p.2

/-- Method `Scheduler::submit` for a `FifoStrategy`: forwards to
`FifoStrategy::addTask`; a whole submission sequence is its left fold starting
from the empty queue. -/
def Scheduler.submitAllFifo {α : Type} (l : List α) : List α :=
  l.foldl FifoStrategy.addTask []

/-- Method `Scheduler::submit` for a `PriorityStrategy`: forwards to
`PriorityStrategy::addTask`; a whole submission sequence is its left fold
starting from the empty queue. -/
def Scheduler.submitAllPrio {α : Type} (prio : α → Int) (l : List α) : List α :=
  l.foldl (PriorityStrategy.addTask prio) []

example : (SyncStateMachine.new.run [Event.Start, Event.Pause, Event.Resume, Event.Stop]) =
    ([true, true, true, true], ⟨State.Stopped⟩) := by decide

example : (SyncStateMachine.new.handleEvent Event.Resume) = (false, ⟨State.Idle⟩) := by decide

example : (SyncStateMachine_Callback.new.setCallback.handleEvent Event.Start) =
    (true, ⟨State.Running, true⟩,
      [CbAction.assign State.Running,
       CbAction.invoke State.Idle Event.Start State.Running]) := by decide

example : Scheduler.runAux PriorityStrategy.getNextTask 3
    (Scheduler.submitAllPrio (fun p => p.2) [("Low", (3 : Int)), ("Urgent", 1), ("Medium", 2)]) =
    [("Urgent", 1), ("Medium", 2), ("Low", 3)] := by decide

/-! Helper lemmas. -/

/-- No rule of the transition table leaves `Stopped`. -/
lemma mapFind_stopped : ∀ e : Event, mapFind transitionRules (State.Stopped, e) = none := by
  decide

/-- Every state reached by a `SyncStateMachine` run from a reachable state is
reachable. -/
lemma sync_run_reachable : ∀ (events : List Event) (s : State),
    ReachableFromIdle s →
    ReachableFromIdle ((SyncStateMachine.run ⟨s⟩ events).2.currentState) := by
  intro events
  induction events with
  | nil => intro s h; exact h
  | cons e es ih =>
      intro s h
      cases hf : mapFind transitionRules (s, e) with
      | none =>
          simpa [SyncStateMachine.run, SyncStateMachine.handleEvent, hf] using ih s h
      | some t =>
          simpa [SyncStateMachine.run, SyncStateMachine.handleEvent, hf] using
            ih t (ReachableFromIdle.step s t e h hf)

/-- Every state reached by a `LockFreeStateMachine` run from a reachable state
is reachable. -/
lemma lockFree_run_reachable : ∀ (events : List Event) (s : State),
    ReachableFromIdle s →
    ReachableFromIdle ((LockFreeStateMachine.run ⟨s⟩ events).2.currentState) := by
  intro events
  induction events with
  | nil => intro s h; exact h
  | cons e es ih =>
      intro s h
      cases hf : mapFind transitionRules (s, e) with
      | none =>
          simpa [LockFreeStateMachine.run, LockFreeStateMachine.handleEvent, hf] using ih s h
      | some t =>
          simpa [LockFreeStateMachine.run, LockFreeStateMachine.handleEvent, hf] using
            ih t (ReachableFromIdle.step s t e h hf)

/-- Every state reached by a `SyncStateMachine_Callback` run from a reachable
state is reachable, whether or not a callback is registered. -/
lemma callback_run_reachable : ∀ (events : List Event) (s : State) (cb : Bool),
    ReachableFromIdle s →
    ReachableFromIdle (((SyncStateMachine_Callback.mk s cb).run events).2.1.currentState) := by
  intro events
  induction events with
  | nil => intro s cb h; exact h
  | cons e es ih =>
      intro s cb h
      cases hf : mapFind transitionRules (s, e) with
      | none =>
          simpa [SyncStateMachine_Callback.run, SyncStateMachine_Callback.handleEvent, hf] using
            ih s cb h
      | some t =>
          simpa [SyncStateMachine_Callback.run, SyncStateMachine_Callback.handleEvent, hf] using
            ih t cb (ReachableFromIdle.step s t e h hf)

/-- Rendering of the construction-time duplicate check required by the spec, for comparison
with the construction the code performs (`mapOfList`): a builder that refuses to build —
returns `none` — exactly when two rules share a `(fromState, event)` key. -/
def buildTableRefusingDup (l : List ((State × Event) × State)) : Option StateMap :=
  if (l.map Prod.fst).Nodup then some (mapOfList l) else none

/-- A key is absent from the association list exactly when `mapFind` misses. -/
lemma mapFind_eq_none_iff (m : StateMap) (k : State × Event) :
    mapFind m k = none ↔ k ∉ m.map Prod.fst := by
  induction m with
  | nil => simp [mapFind]
  | cons kv rest ih =>
      cases kv with
      | mk k2 v => by_cases hk : k = k2 <;> simp [mapFind, hk, ih]

/-- First-wins insertion preserves distinctness of keys. -/
lemma mapInsert_keys_nodup (m : StateMap) (k : State × Event) (v : State)
    (h : (m.map Prod.fst).Nodup) : ((mapInsert m k v).map Prod.fst).Nodup := by
  unfold mapInsert
  cases hf : mapFind m k with
  | some w => exact h
  | none =>
      have hk : k ∉ m.map Prod.fst := (mapFind_eq_none_iff m k).mp hf
      simp [List.nodup_append, h, hk]

/-- Folding first-wins insertions over any list keeps the keys distinct. -/
lemma foldl_mapInsert_keys_nodup : ∀ (l : List ((State × Event) × State)) (m : StateMap),
    (m.map Prod.fst).Nodup →
    ((l.foldl (fun m2 kv => mapInsert m2 kv.1 kv.2) m).map Prod.fst).Nodup := by
  intro l
  induction l with
  | nil => intro m h; simpa using h
  | cons kv rest ih => intro m h; exact ih (mapInsert m kv.1 kv.2) (mapInsert_keys_nodup m kv.1 kv.2 h)

/-! Claim theorems. -/

/-- Claim C1: for every state and event, `SyncStateMachine::handleEvent`
returns true and sets `currentState` to the target state of the table when
`transitionRules` has a rule for `(currentState, event)`, and returns false
leaving `currentState` (as observed by `getCurrentState`) unchanged when no
rule exists. -/
theorem sync_handleEvent_follows_table (m : SyncStateMachine) (e : Event) :
    (∀ t, mapFind transitionRules (m.getCurrentState, e) = some t →
        (m.handleEvent e).1 = true ∧ (m.handleEvent e).2.getCurrentState = t) ∧
    (mapFind transitionRules (m.getCurrentState, e) = none →
        (m.handleEvent e).1 = false ∧
          (m.handleEvent e).2.getCurrentState = m.getCurrentState) := by
  refine ⟨fun t ht => ?_, fun hn => ?_⟩ <;>
    simp_all [SyncStateMachine.handleEvent, SyncStateMachine.getCurrentState]

/-- Witness for C1 at concrete inputs: from `Idle`, `Start` succeeds into
`Running`. -/
theorem sync_handleEvent_follows_table_witness :
    ((SyncStateMachine.mk State.Idle).handleEvent Event.Start).1 = true ∧
    ((SyncStateMachine.mk State.Idle).handleEvent Event.Start).2.getCurrentState =
      State.Running :=
  (sync_handleEvent_follows_table ⟨State.Idle⟩ Event.Start).1 State.Running (by decide)

/-- Claim C2: for every starting state and sequence of events, the sequential
behaviour of `LockFreeStateMachine::handleEvent` — boolean results and final
state — coincides with that of `SyncStateMachine::handleEvent`. -/
theorem lockFree_equiv_sync (s : State) (events : List Event) :
    (LockFreeStateMachine.run ⟨s⟩ events).1 = (SyncStateMachine.run ⟨s⟩ events).1 ∧
    (LockFreeStateMachine.run ⟨s⟩ events).2.getCurrentState =
      (SyncStateMachine.run ⟨s⟩ events).2.getCurrentState := by
  induction events generalizing s with
  | nil => exact ⟨rfl, rfl⟩
  | cons e es ih =>
      cases h : mapFind transitionRules (s, e) with
      | none =>
          simpa [LockFreeStateMachine.run, SyncStateMachine.run,
                 LockFreeStateMachine.handleEvent, SyncStateMachine.handleEvent,
                 LockFreeStateMachine.getCurrentState, SyncStateMachine.getCurrentState,
                 h] using ih s
      | some t =>
          simpa [LockFreeStateMachine.run, SyncStateMachine.run,
                 LockFreeStateMachine.handleEvent, SyncStateMachine.handleEvent,
                 LockFreeStateMachine.getCurrentState, SyncStateMachine.getCurrentState,
                 h] using ih t

/-- Claim C3: for every FSM variant and every event sequence from
construction, the current state is reachable from `Idle` via transitions of
the table (the callback variant is covered for both callback states). -/
theorem fsm_state_always_reachable (events : List Event) (cb : Bool) :
    ReachableFromIdle ((SyncStateMachine.new.run events).2.getCurrentState) ∧
    ReachableFromIdle ((LockFreeStateMachine.new.run events).2.getCurrentState) ∧
    ReachableFromIdle (((SyncStateMachine_Callback.mk State.Idle cb).run events).2.1.currentState) :=
  ⟨sync_run_reachable events State.Idle ReachableFromIdle.start,
   lockFree_run_reachable events State.Idle ReachableFromIdle.start,
   callback_run_reachable events State.Idle cb ReachableFromIdle.start⟩

/-- Claim C4: the built map holds exactly the five source rules — lookup
succeeds precisely on them — and on every pair outside them `handleEvent`
returns false and keeps the state. -/
theorem transitionTable_exactly_five :
    transitionRules = transitionRulesSrc ∧
    (∀ (s : State) (e : Event) (t : State),
        mapFind transitionRules (s, e) = some t ↔ ((s, e), t) ∈ transitionRulesSrc) ∧
    (∀ (s : State) (e : Event), (∀ t : State, ((s, e), t) ∉ transitionRulesSrc) →
        SyncStateMachine.handleEvent ⟨s⟩ e = (false, ⟨s⟩)) := by
  decide

/-- Witness for C4 at a concrete input: `(Stopped, Start)` is not among the
five rules and is a rejected no-op. -/
theorem transitionTable_exactly_five_witness :
    SyncStateMachine.handleEvent ⟨State.Stopped⟩ Event.Start =
      (false, ⟨State.Stopped⟩) :=
  transitionTable_exactly_five.2.2 State.Stopped Event.Start (by decide)

/-- Claim C5: from `Stopped`, every event sequence yields only false results
and leaves every FSM variant at `Stopped` (with no observer invocation for
the callback variant). -/
theorem stopped_terminal (events : List Event) (cb : Bool) :
    SyncStateMachine.run ⟨State.Stopped⟩ events =
      (events.map (fun _ => false), ⟨State.Stopped⟩) ∧
    LockFreeStateMachine.run ⟨State.Stopped⟩ events =
      (events.map (fun _ => false), ⟨State.Stopped⟩) ∧
    SyncStateMachine_Callback.run ⟨State.Stopped, cb⟩ events =
      (events.map (fun _ => false), ⟨State.Stopped, cb⟩, []) := by
  induction events with
  | nil => exact ⟨rfl, rfl, rfl⟩
  | cons e es ih =>
      simp [SyncStateMachine.run, LockFreeStateMachine.run, SyncStateMachine_Callback.run,
            SyncStateMachine.handleEvent, LockFreeStateMachine.handleEvent,
            SyncStateMachine_Callback.handleEvent, mapFind_stopped, ih]

/-- Claim C6 (behavioural part): `SyncStateMachine_Callback::handleEvent`
returns the same boolean and commits the same state as
`SyncStateMachine::handleEvent`, and on every successful transition with a
registered callback the trace is the assignment of the new state followed —
strictly after — by the observer invocation with `(oldState, event, newState)`.
The interface part of the claim fails: the class has no `getCurrentState`
method (see RESULTS). -/
theorem callback_commit_then_notify (s : State) (cb : Bool) (e : Event) :
    ((SyncStateMachine_Callback.mk s cb).handleEvent e).1 =
      (SyncStateMachine.handleEvent ⟨s⟩ e).1 ∧
    ((SyncStateMachine_Callback.mk s cb).handleEvent e).2.1.currentState =
      (SyncStateMachine.handleEvent ⟨s⟩ e).2.currentState ∧
    (∀ t, mapFind transitionRules (s, e) = some t → cb = true →
      ((SyncStateMachine_Callback.mk s cb).handleEvent e).2.2 =
        [CbAction.assign t, CbAction.invoke s e t]) := by
  cases h : mapFind transitionRules (s, e) <;>
    simp_all [SyncStateMachine_Callback.handleEvent, SyncStateMachine.handleEvent]

/-- Witness for the C6 theorem at a concrete input: from `Idle` with a callback,
`Start` produces the commit of `Running` followed by the invocation
`(Idle, Start, Running)`. -/
theorem callback_commit_then_notify_witness :
    ((SyncStateMachine_Callback.mk State.Idle true).handleEvent Event.Start).2.2 =
      [CbAction.assign State.Running,
       CbAction.invoke State.Idle Event.Start State.Running] :=
  (callback_commit_then_notify State.Idle true Event.Start).2.2 State.Running (by decide) rfl

/-- Counterexample to claim C7 as stated: constructing the `std::map` from a
rule list whose two rules share the key `(Idle, Start)` does not fail — it
yields the one-entry table keeping the first rule — whereas the refusing
builder demanded by the claim rejects that list. -/
theorem dup_construction_not_refused :
    mapOfList [((State.Idle, Event.Start), State.Running),
               ((State.Idle, Event.Start), State.Paused)] =
      [((State.Idle, Event.Start), State.Running)] ∧
    buildTableRefusingDup [((State.Idle, Event.Start), State.Running),
               ((State.Idle, Event.Start), State.Paused)] = none := by
  decide

/-- Claim C7 (amended): map construction never fails — on a duplicate key the
first rule is kept and later ones are silently discarded — so every built
table has pairwise-distinct keys and a duplicate-key conflict can never
surface through `handleEvent`; the actual `transitionRules` initializer list
has five distinct keys, and the built map holds exactly those five rules. -/
theorem dup_keys_never_surface :
    (∀ l : List ((State × Event) × State), ((mapOfList l).map Prod.fst).Nodup) ∧
    (transitionRulesSrc.map Prod.fst).Nodup ∧
    transitionRules = transitionRulesSrc := by
  exact ⟨fun l => foldl_mapInsert_keys_nodup l [] (by simp), by decide, by decide⟩

/-- Claim C8: with no callback registered, the `handleEvent` of
`SyncStateMachine_Callback` on a matching rule still commits the new state and returns true,
and its trace never contains an observer invocation — the call into the empty
`std::function` is unreachable. -/
theorem callback_absent_no_invoke (s : State) (e : Event) :
    (∀ t, mapFind transitionRules (s, e) = some t →
      (SyncStateMachine_Callback.mk s false).handleEvent e =
        (true, ⟨t, false⟩, [CbAction.assign t])) ∧
    (∀ a, a ∈ ((SyncStateMachine_Callback.mk s false).handleEvent e).2.2 →
      ∀ o ev n, a ≠ CbAction.invoke o ev n) := by
  constructor
  · intro t ht
    simp [SyncStateMachine_Callback.handleEvent, ht]
  · intro a ha o ev n
    cases h : mapFind transitionRules (s, e) <;>
      simp_all [SyncStateMachine_Callback.handleEvent]

/-- Witness for C8 at a concrete input: from `Idle` without a callback,
`Start` commits `Running`, returns true, and performs only the assignment. -/
theorem callback_absent_no_invoke_witness :
    (SyncStateMachine_Callback.mk State.Idle false).handleEvent Event.Start =
      (true, ⟨State.Running, false⟩, [CbAction.assign State.Running]) :=
  (callback_absent_no_invoke State.Idle Event.Start).1 State.Running (by decide)

/-- Folding FIFO pushes onto a queue appends the submitted list. -/
lemma foldl_fifo_addTask {α : Type} (l : List α) : ∀ q : List α,
    l.foldl FifoStrategy.addTask q = q ++ l := by
  induction l with
  | nil => intro q; simp
  | cons t rest ih => intro q; simp [FifoStrategy.addTask, ih]

/-- The scheduler loop over the FIFO strategy drains the queue in order once
given at least as much fuel as the queue is long. -/
lemma runAux_fifo_drains {α : Type} : ∀ (l : List α) (n : Nat), l.length ≤ n →
    Scheduler.runAux FifoStrategy.getNextTask n l = l := by
  intro l
  induction l with
  | nil => intro n _; cases n <;> simp [Scheduler.runAux, FifoStrategy.getNextTask]
  | cons t rest ih =>
      intro n hn
      cases n with
      | zero => simp at hn
      | succ m =>
          simp only [Scheduler.runAux, FifoStrategy.getNextTask]
          exact congrArg (t :: ·) (ih m (Nat.le_of_succ_le_succ hn))

/-- Pushing into the priority queue permutes to consing. -/
lemma pqPush_perm {α : Type} (prio : α → Int) (t : α) : ∀ q : List α,
    (pqPush prio t q).Perm (t :: q) := by
  intro q
  induction q with
  | nil => simp [pqPush]
  | cons x xs ih =>
      by_cases hc : prio t < prio x
      · simp [pqPush, hc]
      · simp only [pqPush, if_neg hc]
        exact (ih.cons x).trans (List.Perm.swap t x xs)

/-- Pushing into the priority queue preserves ascending-priority sortedness. -/
lemma pqPush_sorted {α : Type} (prio : α → Int) (t : α) : ∀ q : List α,
    q.Sorted (fun a b => prio a ≤ prio b) →
    (pqPush prio t q).Sorted (fun a b => prio a ≤ prio b) := by
  intro q
  induction q with
  | nil => intro _; simp [pqPush]
  | cons x xs ih =>
      intro hs
      rw [List.sorted_cons] at hs
      obtain ⟨hx, hxs⟩ := hs
      by_cases hc : prio t < prio x
      · simp only [pqPush, if_pos hc, List.sorted_cons]
        refine ⟨?_, hx, hxs⟩
        intro b hb
        rcases List.mem_cons.mp hb with hb | hb
        · exact hb ▸ le_of_lt hc
        · exact le_trans (le_of_lt hc) (hx b hb)
      · simp only [pqPush, if_neg hc, List.sorted_cons]
        refine ⟨?_, ih hxs⟩
        intro b hb
        rcases List.mem_cons.mp ((pqPush_perm prio t xs).mem_iff.mp hb) with hb | hb
        · exact hb ▸ le_of_not_lt hc
        · exact hx b hb

/-- Submitting tasks through `PriorityStrategy::addTask` keeps the queue a
permutation of the already-submitted tasks. -/
lemma submitAllPrio_perm {α : Type} (prio : α → Int) : ∀ (l q : List α),
    (l.foldl (PriorityStrategy.addTask prio) q).Perm (q ++ l) := by
  intro l
  induction l with
  | nil => intro q; simp
  | cons t rest ih =>
      intro q
      have h1 : (rest.foldl (PriorityStrategy.addTask prio) (pqPush prio t q)).Perm
          (pqPush prio t q ++ rest) := ih (pqPush prio t q)
      have h2 : (pqPush prio t q ++ rest).Perm ((t :: q) ++ rest) :=
        (pqPush_perm prio t q).append_right rest
      have h3 : (t :: (q ++ rest)).Perm (q ++ t :: rest) := List.perm_middle.symm
      simpa [PriorityStrategy.addTask] using (h1.trans h2).trans h3

/-- The priority queue built by submissions is sorted by ascending priority. -/
lemma submitAllPrio_sorted {α : Type} (prio : α → Int) : ∀ (l q : List α),
    q.Sorted (fun a b => prio a ≤ prio b) →
    (l.foldl (PriorityStrategy.addTask prio) q).Sorted (fun a b => prio a ≤ prio b) := by
  intro l
  induction l with
  | nil => intro q h; simpa using h
  | cons t rest ih =>
      intro q h
      exact ih (pqPush prio t q) (pqPush_sorted prio t q h)

/-- Claim C9: `FifoStrategy::getNextTask` returns `nullptr` exactly on the
empty queue and otherwise removes and returns the front (earliest-added) task;
consequently `Scheduler::run` over a FIFO queue holding any submitted task
sequence executes every task exactly once, in submission order, and the loop
terminates within as many iterations as there are tasks. -/
theorem fifo_scheduler_in_order {α : Type} (l q : List α) :
    (FifoStrategy.getNextTask q = none ↔ q = []) ∧
    (∀ t rest, FifoStrategy.getNextTask q = some (t, rest) → q = t :: rest) ∧
    (∀ n, l.length ≤ n →
      Scheduler.runAux FifoStrategy.getNextTask n (Scheduler.submitAllFifo l) = l) := by
  refine ⟨?_, ?_, ?_⟩
  · cases q <;> simp [FifoStrategy.getNextTask]
  · intro t rest h
    cases q <;> simp_all [FifoStrategy.getNextTask]
  · intro n hn
    have hq : Scheduler.submitAllFifo l = l := by
      simpa using foldl_fifo_addTask l []
    rw [hq]
    exact runAux_fifo_drains l n hn

/-- Witness for C9 at a concrete input: three submitted tasks run in
submission order with fuel three. -/
theorem fifo_scheduler_in_order_witness :
    Scheduler.runAux FifoStrategy.getNextTask 3
      (Scheduler.submitAllFifo [10, 20, 30]) = [10, 20, 30] :=
  (fifo_scheduler_in_order [10, 20, 30] ([] : List Nat)).2.2 3 (by decide)

/-- Claim C10: on the queue built from any submission sequence,
`PriorityStrategy::getNextTask` returns `nullptr` exactly when the queue is
empty, and otherwise removes and returns a task of minimal `getPriority` among
the queued tasks, the remainder being exactly the other queued tasks. -/
theorem prio_getNextTask_minimal {α : Type} (prio : α → Int) (l : List α) :
    (PriorityStrategy.getNextTask (Scheduler.submitAllPrio prio l) = none ↔ l = []) ∧
    (∀ t rest,
      PriorityStrategy.getNextTask (Scheduler.submitAllPrio prio l) = some (t, rest) →
      Scheduler.submitAllPrio prio l = t :: rest ∧
      (∀ x, x ∈ Scheduler.submitAllPrio prio l → prio t ≤ prio x) ∧
      (t :: rest).Perm l) := by
  have hperm : (Scheduler.submitAllPrio prio l).Perm l := by
    simpa using submitAllPrio_perm prio l []
  have hsort : (Scheduler.submitAllPrio prio l).Sorted (fun a b => prio a ≤ prio b) :=
    submitAllPrio_sorted prio l [] (by simp)
  refine ⟨?_, ?_⟩
  · constructor
    · intro h
      obtain ⟨q, hq⟩ : ∃ q, Scheduler.submitAllPrio prio l = q := ⟨_, rfl⟩
      rw [hq] at h hperm
      cases q with
      | nil => exact hperm.symm.eq_nil
      | cons x xs => simp [PriorityStrategy.getNextTask] at h
    · intro h
      subst h
      rfl
  · intro t rest h
    obtain ⟨q, hq⟩ : ∃ q, Scheduler.submitAllPrio prio l = q := ⟨_, rfl⟩
    rw [hq] at h hsort hperm
    rw [hq]
    cases q with
    | nil => simp [PriorityStrategy.getNextTask] at h
    | cons x xs =>
        simp only [PriorityStrategy.getNextTask, Option.some.injEq, Prod.mk.injEq] at h
        obtain ⟨ht, hrest⟩ := h
        subst ht; subst hrest
        rw [List.sorted_cons] at hsort
        refine ⟨rfl, ?_, hperm⟩
        intro y hy
        rcases List.mem_cons.mp hy with hy | hy
        · exact hy ▸ le_refl _
        · exact hsort.1 y hy

/-- Witness for C10 at a concrete input: submitting priorities three, one, two
yields the queue one-two-three, whose head one is minimal. -/
theorem prio_getNextTask_minimal_witness :
    Scheduler.submitAllPrio (fun x : Int => x) [3, 1, 2] = 1 :: [2, 3] ∧
    (∀ x, x ∈ Scheduler.submitAllPrio (fun x : Int => x) [3, 1, 2] → (1 : Int) ≤ x) ∧
    ((1 : Int) :: [2, 3]).Perm [3, 1, 2] :=
  (prio_getNextTask_minimal (fun x : Int => x) [3, 1, 2]).2 1 [2, 3] (by decide)
